import Mathlib

/-!
Verification of `generate_cards.py` (anki-from-docs): a shallow embedding of
the card-generation pipeline — Python string primitives (`str.split`,
`str.replace` with count 1, `max(..., key=len)`, `str.startswith` with a
tuple), the section heading regex `^(\d+(\.\d+)*)\.\s*(.+)`, the sectioner,
the two card heuristics, the CSV writer, and the command-line entry point —
together with theorems checking the documented behaviour.

Strings are modelled as Lean `String`s (sequences of Unicode scalar values,
matching Python `str` code points); whitespace and digit classes are the
ASCII ones, which cover every character class the program's inputs exercise.
-/

namespace AnkiFromDocs

/-- Whitespace test matching Python's `str.split()` / regex `\s` on ASCII
characters (space, tab, newline, carriage return, vertical tab, form feed). -/
def pyIsSpace (c : Char) : Bool :=
  c = ' ' || c = '\t' || c = '\n' || c = '\r' || c = '\x0b' || c = '\x0c'

/-- One right-to-left pass of Python's `str.split()` (no argument): the
first component is the word still growing at the front, the second the
completed words to its right. -/
def splitWsRev : List Char → List Char × List (List Char)
  | [] => ([], [])
  | c :: cs =>
    let r := splitWsRev cs
    if pyIsSpace c then ([], if r.1 = [] then r.2 else r.1 :: r.2)
    else (c :: r.1, r.2)

/-- Word splitting of Python's `str.split()`: split on runs of whitespace,
discarding empty pieces. -/
def splitWs (cs : List Char) : List (List Char) :=
  let r := splitWsRev cs
  if r.1 = [] then r.2 else r.1 :: r.2

/-- `sentence.split()` on Lean strings. -/
def pySplit (s : String) : List String :=
  (splitWs s.data).map String.mk

/-- Does `s` start with the pattern `pat`? (Python `str.startswith` on one
prefix string, at the list-of-characters level.) -/
def startsWithL : List Char → List Char → Bool
  | [], _ => true
  | _ :: _, [] => false
  | p :: pat, c :: s => p = c && startsWithL pat s

/-- `s.replace(old, new, 1)` of Python: replace the first (leftmost)
occurrence of the substring `old` by `new`; if `old` does not occur, return
`s` unchanged. -/
def replaceFirstL (old new : List Char) : List Char → List Char
  | [] => if startsWithL old [] then new else []
  | c :: cs =>
    if startsWithL old (c :: cs) then new ++ (c :: cs).drop old.length
    else c :: replaceFirstL old new cs

/-- String-level wrapper for `s.replace(old, new, 1)`. -/
def pyReplaceFirst (s old new : String) : String :=
  String.mk (replaceFirstL old.data new.data s.data)

/-- Python's `max(x :: xs, key=len)`: the first element of maximal length
(`max` only replaces the current best on a strictly greater key). -/
def maxByLen (x : String) (xs : List String) : String :=
  xs.foldl (fun m w => if m.length < w.length then w else m) x

/-- Python's `sep.join(xs)`. -/
def pyJoin (sep : String) (xs : List String) : String :=
  String.mk (List.intercalate sep.data (xs.map String.data))

/-- The `DEFINITION_STARTERS` tuple of the source. -/
def DEFINITION_STARTERS : List String :=
  ["Es denomina", "És", "Es produeix", "La", "El", "Els", "Les"]

/-- `is_definition`: the sentence starts with one of the definition starters
and has strictly more than 8 whitespace-delimited words. -/
def is_definition (sentence : String) : Bool :=
  DEFINITION_STARTERS.any (fun p => startsWithL p.data sentence.data) &&
    decide (8 < (pySplit sentence).length)

/-- `generate_basic_card`: front is `"Defineix: "` plus the first five words
joined with single spaces plus `"..."`; back is the sentence itself. -/
def generate_basic_card (sentence : String) : String × String :=
  let words := pySplit sentence
  let key := pyJoin " " (words.take 5) ++ "..."
  ("Defineix: " ++ key, sentence)

/-- `generate_cloze`: `None` when the sentence has fewer than 10 words or the
longest word (first one on ties) is shorter than 6 characters; otherwise the
sentence with the first occurrence of that longest word wrapped in
`\x7b\x7bc1::...\x7d\x7d`. -/
def generate_cloze (sentence : String) : Option String :=
  let words := pySplit sentence
  if words.length < 10 then none
  else
    match words with
    | [] => none
    | w :: ws =>
      let key_word := maxByLen w ws
      if key_word.length < 6 then none
      else some (pyReplaceFirst sentence key_word
        ("\x7b\x7bc1::" ++ key_word ++ "\x7d\x7d"))

/-- A card record; the Python dict with keys type/front/back/section/approved
(`section` is a Lean keyword, so the field is named `sect`). -/
structure Card where
  type : String
  front : String
  back : String
  sect : String
  approved : String
deriving Repr, DecidableEq

/-- The body of the `generate_cards` loop for one (section, sentence) pair:
the basic card when `is_definition` fires, then the cloze card when
`generate_cloze` returns a truthy (non-`None`, non-empty) string. -/
def cardsFor (sect sentence : String) : List Card :=
  (if is_definition sentence then
    [{ type := "basic", front := (generate_basic_card sentence).1,
       back := (generate_basic_card sentence).2, sect := sect, approved := "no" }]
   else []) ++
  (match generate_cloze sentence with
   | some cloze =>
     if cloze != "" then
       [{ type := "cloze", front := cloze, back := "", sect := sect, approved := "no" }]
     else []
   | none => [])

/-- `generate_cards`: append the cards of each pair in order. -/
def generate_cards : List (String × String) → List Card
  | [] => []
  | (sect, sentence) :: rest => cardsFor sect sentence ++ generate_cards rest

/-! ### The heading regex `^(\d+(\.\d+)*)\.\s*(.+)` and the sectioner

The regex is embedded as an executable backtracking matcher.  Two facts about
the pattern let the search space collapse: a shorter-than-maximal match of any
`\d+` leaves a digit as the next character, where the pattern demands `.`, so
every `\d+` must take its full digit run; hence the only backtracking choice
is how many `(\.\d+)` repetitions to keep (greedy: as many as possible first),
and, inside `\s*(.+)`, how much whitespace `\s*` keeps (greedy; `.` matches
any character except `\n`).  Group 3 is the maximal `\n`-free run at the
chosen position. -/

/-- Split the maximal list of `(\.\d+)` repetitions off the front; returns
the repetitions (each with its leading dot) and the remainder. -/
def dotRuns (cs : List Char) : List (List Char) × List Char :=
  match cs with
  | [] => ([], [])
  | c :: rest =>
    if c = '.' then
      let digits := rest.takeWhile Char.isDigit
      if digits.isEmpty then ([], c :: rest)
      else
        let r := dotRuns (rest.dropWhile Char.isDigit)
        (('.' :: digits) :: r.1, r.2)
    else ([], c :: rest)
termination_by cs.length
decreasing_by
  have h : (cs.dropWhile Char.isDigit).length ≤ cs.length := by
    induction cs with
    | nil => simp [List.dropWhile]
    | cons d ds ih => simp only [List.dropWhile]; split <;> simp only [List.length_cons] <;> omega
  simp only [List.length_cons]; omega

/-- Backtracking match of `\s*(.+)` against `r`, trying the largest
whitespace consumption `j` first; returns group 3 on success. -/
def wsDotPlusGo (r : List Char) : Nat → Option (List Char)
  | 0 =>
    match r with
    | [] => none
    | c :: _ => if c = '\n' then none else some (r.takeWhile (fun d => d ≠ '\n'))
  | j + 1 =>
    match r.drop (j + 1) with
    | [] => wsDotPlusGo r j
    | c :: _ =>
      if c = '\n' then wsDotPlusGo r j
      else some ((r.drop (j + 1)).takeWhile (fun d => d ≠ '\n'))

/-- Match `\s*(.+)` against `r` (greedy `\s*`, then at least one non-`\n`
character; group 3 is the maximal `\n`-free run). -/
def wsDotPlus (r : List Char) : Option (List Char) :=
  wsDotPlusGo r (r.takeWhile pyIsSpace).length

/-- Try the mandatory literal `.` followed by `\s*(.+)` at `r`, with group 1
fixed to `g1`. -/
def sectionAttempt (g1 : List Char) (r : List Char) : Option (List Char × List Char) :=
  match r with
  | '.' :: r2 => (wsDotPlus r2).map (fun g3 => (g1, g3))
  | _ => none

/-- Backtracking over how many `(\.\d+)` repetitions group 1 keeps: deepest
(most repetitions) first, then give repetitions back one at a time. -/
def sectionBacktrack (g1 : List Char) (runs : List (List Char)) (rest : List Char) :
    Option (List Char × List Char) :=
  match runs with
  | [] => sectionAttempt g1 rest
  | run :: rs =>
    match sectionBacktrack (g1 ++ run) rs rest with
    | some res => some res
    | none => sectionAttempt g1 (run ++ rs.flatten ++ rest)

/-- `SECTION_REGEX.match(p)` for `^(\d+(\.\d+)*)\.\s*(.+)`: `some (g1, g3)`
with the captures of groups 1 and 3, or `none` when the paragraph is not a
heading. -/
def sectionMatch (p : List Char) : Option (List Char × List Char) :=
  let d := p.takeWhile Char.isDigit
  if d.isEmpty then none
  else
    let rr := dotRuns (p.dropWhile Char.isDigit)
    sectionBacktrack d rr.1 rr.2

/-- The section label a heading paragraph produces:
`f"{match.group(1)} {match.group(3)}"`, or `none` for a non-heading. -/
def sectionHead (p : String) : Option String :=
  (sectionMatch p.data).map (fun g => String.mk g.1 ++ " " ++ String.mk g.2)

/-- The loop of `detect_sections`, carrying the current section label. -/
def detectAux (current : String) : List String → List (String × String)
  | [] => []
  | p :: ps =>
    match sectionHead p with
    | some s => detectAux s ps
    | none => (current, p) :: detectAux current ps

/-- `detect_sections`: tag every non-heading paragraph with the label of the
most recent heading, starting from `"General"`. -/
def detect_sections (paragraphs : List String) : List (String × String) :=
  detectAux "General" paragraphs

/-! ### The CSV writer (`csv.DictWriter`, default dialect) and its reader

Default dialect: delimiter `,`, quote character `"`, doubled quotes,
line terminator CR LF, minimal quoting.  A field is quoted exactly when it
contains a delimiter, a quote character, or a line-terminator character.
The file content is modelled as its sequence of Unicode scalar values; the
UTF-8 byte layer is treated separately below. -/

/-- Does the field need quoting under minimal quoting? -/
def needsQuote (s : String) : Bool :=
  s.data.any (fun c => c = ',' || c = '\"' || c = '\x0d' || c = '\n')

/-- Double every quote character (the `doublequote = True` escape). -/
def escQ : List Char → List Char
  | [] => []
  | c :: cs => if c = '\"' then '\"' :: '\"' :: escQ cs else c :: escQ cs

/-- Serialize one field: quote and escape it when needed, else verbatim. -/
def writeField (s : String) : List Char :=
  if needsQuote s then '\"' :: (escQ s.data ++ ['\"']) else s.data

/-- Serialize the fields of a row, separated by commas. -/
def rowBody : List String → List Char
  | [] => []
  | [f] => writeField f
  | f :: fs => writeField f ++ ',' :: rowBody fs

/-- Serialize a row with the CR LF terminator.  (The csv module quotes a
lone empty field so that the row is not read back as an empty line; rows of
this program always carry five fields, so the case is vestigial here.) -/
def writeRow (fs : List String) : List Char :=
  (if fs = [""] then ['\"', '\"'] else rowBody fs) ++ ['\x0d', '\n']

/-- The fixed header of `write_csv`. -/
def headerRow : List String :=
  ["type", "front", "back", "section", "approved"]

/-- The five field values of a card, in header order. -/
def cardFields (c : Card) : List String :=
  [c.type, c.front, c.back, c.sect, c.approved]

/-- `write_csv`: the full file content, header row then one row per card in
order. -/
def writeCsvString (cards : List Card) : List Char :=
  writeRow headerRow ++ (cards.map (fun c => writeRow (cardFields c))).flatten

/-- Modelled from the spec: the round-trip property re-reads the produced
file; this is the csv module's reader on the default dialect (which is not
part of the repository's code).  Parse a quoted field body: doubled quotes
become one quote, the single closing quote ends the field. -/
def parseQuoted : List Char → List Char × List Char
  | [] => ([], [])
  | '\"' :: '\"' :: cs =>
    let r := parseQuoted cs
    ('\"' :: r.1, r.2)
  | '\"' :: cs => ([], cs)
  | c :: cs =>
    let r := parseQuoted cs
    (c :: r.1, r.2)

/-- Parse one field: a leading quote opens a quoted field, anything else is
read verbatim up to a comma or line-terminator character. -/
def parseFieldStart (cs : List Char) : List Char × List Char :=
  if cs.head? = some '\"' then parseQuoted cs.tail
  else (cs.takeWhile (fun c => !(c = ',' || c = '\x0d' || c = '\n')),
        cs.dropWhile (fun c => !(c = ',' || c = '\x0d' || c = '\n')))

/-- Strip one row terminator (CR LF, lone CR, or lone LF) off the front. -/
def rowEnd : List Char → List Char
  | '\x0d' :: '\n' :: r2 => r2
  | '\x0d' :: r2 => r2
  | '\n' :: r2 => r2
  | r => r

/-- Parse the fields of one row up to and including its terminator, with a
fuel bound on the number of fields.  A comma continues the row; anything
else (a row terminator or end of input) ends it. -/
def parseRowFuel (fuel : Nat) (cs : List Char) : List (List Char) × List Char :=
  let fld := (parseFieldStart cs).1
  let r := (parseFieldStart cs).2
  match fuel with
  | 0 => ([fld], rowEnd r)
  | fuel' + 1 =>
    match r with
    | ',' :: r2 =>
      let rest := parseRowFuel fuel' r2
      (fld :: rest.1, rest.2)
    | _ => ([fld], rowEnd r)

/-- Parse all rows, with a fuel bound on the number of rows. -/
def parseRowsFuel : Nat → List Char → List (List (List Char))
  | _, [] => []
  | 0, _ => []
  | fuel + 1, cs =>
    let r := parseRowFuel (cs.length + 1) cs
    r.1 :: parseRowsFuel fuel r.2

/-- Re-read a whole CSV file content into its rows of fields. -/
def readCsv (cs : List Char) : List (List String) :=
  (parseRowsFuel (cs.length + 1) cs).map (fun row => row.map String.mk)

/-! ### The UTF-8 byte layer

The file is written with `encoding="utf-8"`.  Encoding of one Unicode scalar
value into bytes (as naturals below 256), and the decoder, so that the
round-trip claim can be stated through the byte representation. -/

/-- UTF-8 encoding of one scalar value. -/
def utf8EncodeNat (n : Nat) : List Nat :=
  if n < 0x80 then [n]
  else if n < 0x800 then [0xC0 + n / 64, 0x80 + n % 64]
  else if n < 0x10000 then [0xE0 + n / 4096, 0x80 + n / 64 % 64, 0x80 + n % 64]
  else [0xF0 + n / 262144, 0x80 + n / 4096 % 64, 0x80 + n / 64 % 64, 0x80 + n % 64]

/-- UTF-8 encoding of a character sequence. -/
def utf8Encode (cs : List Char) : List Nat :=
  (cs.map (fun c => utf8EncodeNat c.toNat)).flatten

/-- Is `b` a UTF-8 continuation byte? -/
def isCont (b : Nat) : Bool :=
  0x80 ≤ b && b < 0xC0

/-- Decode one UTF-8 scalar value from the front of the byte stream,
rejecting malformed sequences, overlong encodings, surrogates and
out-of-range values; returns the scalar and the remaining bytes. -/
def utf8DecodeOne (b : Nat) (bs : List Nat) : Option (Nat × List Nat) :=
  if b < 0x80 then some (b, bs)
  else if b < 0xC0 then none
  else if b < 0xE0 then
    match bs with
    | b1 :: bs' =>
      if isCont b1 then
        let n := (b - 0xC0) * 64 + (b1 - 0x80)
        if 0x80 ≤ n then some (n, bs') else none
      else none
    | [] => none
  else if b < 0xF0 then
    match bs with
    | b1 :: b2 :: bs' =>
      if isCont b1 && isCont b2 then
        let n := (b - 0xE0) * 4096 + (b1 - 0x80) * 64 + (b2 - 0x80)
        if 0x800 ≤ n && !(0xD800 ≤ n && n ≤ 0xDFFF) then some (n, bs') else none
      else none
    | _ => none
  else if b < 0xF8 then
    match bs with
    | b1 :: b2 :: b3 :: bs' =>
      if isCont b1 && isCont b2 && isCont b3 then
        let n := (b - 0xF0) * 262144 + (b1 - 0x80) * 4096 + (b2 - 0x80) * 64 + (b3 - 0x80)
        if 0x10000 ≤ n && n < 0x110000 then some (n, bs') else none
      else none
    | _ => none
  else none

/-- UTF-8 decoding of a byte stream into scalar values, with a fuel bound on
the number of scalars. -/
def utf8DecodeF : Nat → List Nat → Option (List Nat)
  | _, [] => some []
  | 0, _ :: _ => none
  | fuel + 1, b :: bs =>
    match utf8DecodeOne b bs with
    | some (n, rest) => (utf8DecodeF fuel rest).map (fun ns => n :: ns)
    | none => none

/-- UTF-8 decoding of a byte stream into scalar values (a stream of `k`
bytes holds at most `k` scalars). -/
def utf8Decode (bs : List Nat) : Option (List Nat) :=
  utf8DecodeF bs.length bs

/-! ### The command-line entry point

`pdfplumber` and `python-docx` are external collaborators; following the
spec's interface boundary ("given a path, yield ordered non-empty text
lines") they are opaque functions of the environment, as is `Path.exists`. -/

/-- Split on `/` separators, keeping empty components. -/
def splitOnSlash : List Char → List (List Char)
  | [] => [[]]
  | c :: cs =>
    let r := splitOnSlash cs
    if c = '/' then [] :: r
    else (c :: r.headD []) :: r.tail

/-- The final path component, as `pathlib` parses it ( `.` components and
empty components are dropped; POSIX separators). -/
def pathName (p : String) : String :=
  String.mk (((splitOnSlash p.data).filter (fun s => !(s = [] || s = ['.']))).getLastD [])

/-- Index of the last `.` in a character list, if any. -/
def lastDotIdx : List Char → Option Nat
  | [] => none
  | c :: cs =>
    match lastDotIdx cs with
    | some i => some (i + 1)
    | none => if c = '.' then some 0 else none

/-- `Path.suffix` of `pathlib`: the part of the name from its last dot, when
that dot is neither the first nor the last character of the name. -/
def pySuffix (p : String) : String :=
  let name := (pathName p).data
  match lastDotIdx name with
  | some i => if 0 < i ∧ i < name.length - 1 then String.mk (name.drop i) else ""
  | none => ""

/-- `str.lower()` restricted to ASCII case folding (the extensions compared
against are ASCII). -/
def pyLower (s : String) : String :=
  String.mk (s.data.map Char.toLower)

/-- The ways a run terminates. -/
inductive MainError where
  | fileNotFound (path : String)
  | valueError (msg : String)
deriving Repr, DecidableEq

/-- Outcome of `main`: the usage exit, an uncaught exception, or success with
the number of cards written. -/
inductive MainResult where
  | usageExit
  | uncaught (e : MainError)
  | success (count : Nat)
deriving Repr, DecidableEq

/-- The process environment: `sys.argv`, `Path.exists`, and the two opaque
extraction libraries. -/
structure Env where
  argv : List String
  fileExists : String → Bool
  extractPdf : String → List String
  extractDocx : String → List String

/-- `extract_text`: dispatch on the lower-cased suffix, or raise the
unsupported-format `ValueError`. -/
def extract_text (env : Env) (path : String) : Except MainError (List String) :=
  if pyLower (pySuffix path) = ".pdf" then .ok (env.extractPdf path)
  else if pyLower (pySuffix path) = ".docx" then .ok (env.extractDocx path)
  else .error (.valueError "Format no suportat. Usa PDF o DOCX.")

/-- `main`: argument-count check, existence check, extraction dispatch,
pipeline, write.  The state of the output file is threaded explicitly: it is
only replaced on the success path. -/
def pyMain (env : Env) (outFile : Option (List Char)) : Option (List Char) × MainResult :=
  match env.argv with
  | [_, arg] =>
    if env.fileExists arg then
      match extract_text env arg with
      | .error e => (outFile, .uncaught e)
      | .ok paragraphs =>
        let cards := generate_cards (detect_sections paragraphs)
        (some (writeCsvString cards), .success cards.length)
    else (outFile, .uncaught (.fileNotFound arg))
  | _ => (outFile, .usageExit)

/-! ## Helper lemmas -/

/-- `startsWithL` tests for a literal prefix. -/
theorem startsWithL_iff (pat s : List Char) :
    startsWithL pat s = true ↔ ∃ t, s = pat ++ t := by
  induction pat generalizing s with
  | nil => simp [startsWithL]
  | cons p ps ih =>
    cases s with
    | nil => simp [startsWithL]
    | cons c cs =>
      simp only [startsWithL, Bool.and_eq_true, decide_eq_true_eq, ih, List.cons_append,
        List.cons.injEq]
      constructor
      · rintro ⟨rfl, t, rfl⟩; exact ⟨t, rfl, rfl⟩
      · rintro ⟨t, rfl, rfl⟩; exact ⟨rfl, t, rfl⟩

/-- The word being built at the front by `splitWsRev` is the maximal
non-whitespace run at the front of the input. -/
theorem splitWsRev_fst (cs : List Char) :
    (splitWsRev cs).1 = cs.takeWhile (fun d => !pyIsSpace d) := by
  induction cs with
  | nil => simp [splitWsRev, List.takeWhile]
  | cons c cs ih =>
    simp only [splitWsRev, List.takeWhile]
    cases h : pyIsSpace c <;> simp [h, ih]

/-- Every completed word of `splitWsRev` occurs as a contiguous run of the
input. -/
theorem exists_of_mem_splitWsRev (w : List Char) (cs : List Char)
    (h : w ∈ (splitWsRev cs).2) : ∃ u v, cs = u ++ w ++ v := by
  induction cs with
  | nil => simp [splitWsRev] at h
  | cons c cs ih =>
    simp only [splitWsRev] at h
    cases hsp : pyIsSpace c with
    | false =>
      simp only [hsp, Bool.false_eq_true, if_false] at h
      obtain ⟨u, v, huv⟩ := ih h
      exact ⟨c :: u, v, by simp [huv]⟩
    | true =>
      simp only [hsp, if_true] at h
      by_cases hone : (splitWsRev cs).1 = []
      · simp only [hone, if_pos rfl] at h
        obtain ⟨u, v, huv⟩ := ih h
        exact ⟨c :: u, v, by simp [huv]⟩
      · rw [if_neg hone] at h
        rcases List.mem_cons.mp h with hw | hw
        · subst hw
          refine ⟨[c], cs.dropWhile (fun d => !pyIsSpace d), ?_⟩
          have := List.takeWhile_append_dropWhile (fun d => !pyIsSpace d) cs
          rw [splitWsRev_fst]
          simp only [List.cons_append, List.append_assoc, this]
          simp
        · obtain ⟨u, v, huv⟩ := ih hw
          exact ⟨c :: u, v, by simp [huv]⟩

/-- Every word of `splitWs` occurs as a contiguous run of the input. -/
theorem exists_of_mem_splitWs (w : List Char) (cs : List Char)
    (h : w ∈ splitWs cs) : ∃ u v, cs = u ++ w ++ v := by
  simp only [splitWs] at h
  by_cases hone : (splitWsRev cs).1 = []
  · rw [if_pos hone] at h
    exact exists_of_mem_splitWsRev w cs h
  · rw [if_neg hone] at h
    rcases List.mem_cons.mp h with hw | hw
    · subst hw
      refine ⟨[], cs.dropWhile (fun d => !pyIsSpace d), ?_⟩
      rw [splitWsRev_fst]
      simp [List.takeWhile_append_dropWhile]
    · exact exists_of_mem_splitWsRev w cs hw

/-- Every word of `pySplit` occurs as a contiguous run of the sentence. -/
theorem exists_of_mem_pySplit (w : String) (s : String) (h : w ∈ pySplit s) :
    ∃ u v, s.data = u ++ w.data ++ v := by
  simp only [pySplit, List.mem_map] at h
  obtain ⟨l, hl, rfl⟩ := h
  exact exists_of_mem_splitWs l s.data hl

/-- `maxByLen` picks the first word of maximal length: it splits the list
into strictly shorter words before it, itself, and words no longer than it
after it. -/
theorem maxByLen_split (xs : List String) (x : String) :
    ∃ pre post, x :: xs = pre ++ maxByLen x xs :: post ∧
      (∀ v ∈ pre, v.length < (maxByLen x xs).length) ∧
      (∀ v ∈ x :: xs, v.length ≤ (maxByLen x xs).length) := by
  induction xs generalizing x with
  | nil =>
    refine ⟨[], [], by simp [maxByLen], by simp, ?_⟩
    simp [maxByLen]
  | cons w xs ih =>
    have hstep : maxByLen x (w :: xs) = maxByLen (if x.length < w.length then w else x) xs := by
      simp [maxByLen, List.foldl_cons]
    by_cases hxw : x.length < w.length
    · rw [if_pos hxw] at hstep
      obtain ⟨pre', post', heq, hpre, hall⟩ := ih w
      refine ⟨x :: pre', post', ?_, ?_, ?_⟩
      · rw [hstep]; simp [← heq]
      · intro v hv
        rw [hstep]
        rcases List.mem_cons.mp hv with rfl | hv
        · exact lt_of_lt_of_le hxw (hall w (List.mem_cons_self w xs))
        · exact hpre v hv
      · intro v hv
        rw [hstep]
        rcases List.mem_cons.mp hv with rfl | hv
        · exact le_of_lt (lt_of_lt_of_le hxw (hall w (List.mem_cons_self w xs)))
        · exact hall v hv
    · rw [if_neg hxw] at hstep
      obtain ⟨pre', post', heq, hpre, hall⟩ := ih x
      cases pre' with
      | nil =>
        simp only [List.nil_append] at heq
        have hx : maxByLen x xs = x := by
          have := heq
          injection this with h1 _
          exact h1.symm
        refine ⟨[], w :: xs, ?_, by simp, ?_⟩
        · rw [hstep, hx]; simp
        · intro v hv
          rw [hstep, hx]
          rcases List.mem_cons.mp hv with rfl | hv
          · exact le_refl _
          rcases List.mem_cons.mp hv with rfl | hv
          · omega
          · have := hall v (by simp [hv])
            rw [hx] at this
            exact this
      | cons p pre'' =>
        have hpx : p = x := by
          have := heq
          injection this with h1 _
          exact h1.symm
        subst hpx
        have hxs : xs = pre'' ++ maxByLen p xs :: post' := by
          injection heq
        refine ⟨p :: w :: pre'', post', ?_, ?_, ?_⟩
        · rw [hstep]
          conv_lhs => rw [hxs]
          simp
        · intro v hv
          rw [hstep]
          rcases List.mem_cons.mp hv with rfl | hv
          · exact hpre v (by simp)
          rcases List.mem_cons.mp hv with rfl | hv
          · have hp := hpre p (by simp)
            omega
          · exact hpre v (by simp [hv])
        · intro v hv
          rw [hstep]
          rcases List.mem_cons.mp hv with rfl | hv
          · exact hall v (by simp)
          rcases List.mem_cons.mp hv with rfl | hv
          · have hp := hall p (by simp)
            omega
          · exact hall v (by simp [hv])

/-- `replaceFirstL` on input containing the pattern: it rewrites exactly the
leftmost occurrence. -/
theorem replaceFirstL_found (old new s : List Char) (h : ∃ u v, s = u ++ old ++ v) :
    ∃ u v, s = u ++ old ++ v ∧
      (∀ u' v', s = u' ++ old ++ v' → u.length ≤ u'.length) ∧
      replaceFirstL old new s = u ++ new ++ v := by
  induction s with
  | nil =>
    obtain ⟨u, v, huv⟩ := h
    have hu : u = [] ∧ old = [] ∧ v = [] := by
      constructor
      · cases u with
        | nil => rfl
        | cons a as => simp at huv
      · constructor
        · cases u <;> cases old <;> simp_all
        · cases u <;> cases old <;> cases v <;> simp_all
    obtain ⟨rfl, rfl, rfl⟩ := hu
    exact ⟨[], [], rfl, fun u' v' _ => by simp, by simp [replaceFirstL, startsWithL]⟩
  | cons c cs ih =>
    by_cases hsw : startsWithL old (c :: cs) = true
    · obtain ⟨t, ht⟩ := (startsWithL_iff old (c :: cs)).mp hsw
      refine ⟨[], t, by simpa using ht, fun _ _ _ => by simp, ?_⟩
      simp only [replaceFirstL, hsw, if_pos]
      rw [ht, List.drop_left]
      simp
    · obtain ⟨u, v, huv⟩ := h
      cases u with
      | nil =>
        exfalso
        apply hsw
        exact (startsWithL_iff old (c :: cs)).mpr ⟨v, by simpa using huv⟩
      | cons a u₁ =>
        have hac : a = c := by
          have := huv
          simp only [List.cons_append, List.append_assoc] at this
          injection this with h1 _
          exact h1.symm
        subst hac
        have hcs : cs = u₁ ++ old ++ v := by
          simp only [List.cons_append] at huv
          injection huv
        obtain ⟨u₂, v₂, heq, hmin, hrep⟩ := ih ⟨u₁, v, hcs⟩
        refine ⟨a :: u₂, v₂, by simp [heq], ?_, ?_⟩
        · intro u' v' h'
          cases u' with
          | nil =>
            exfalso
            apply hsw
            exact (startsWithL_iff old (a :: cs)).mpr ⟨v', by simpa using h'⟩
          | cons b u₁' =>
            have : cs = u₁' ++ old ++ v' := by
              simp only [List.cons_append] at h'
              injection h'
            have := hmin u₁' v' this
            simp only [List.length_cons]
            omega
        · simp only [replaceFirstL, hsw, if_neg, Bool.false_eq_true, not_false_iff]
          rw [hrep]
          simp

/-- A member of `cardsFor` with type `"cloze"` is exactly a truthy result of
`generate_cloze`, packaged with empty back and the pair's section. -/
theorem mem_cardsFor_cloze (sect s : String) (c : Card) :
    (c ∈ cardsFor sect s ∧ c.type = "cloze") ↔
      ∃ t, generate_cloze s = some t ∧ t ≠ "" ∧
        c = { type := "cloze", front := t, back := "", sect := sect, approved := "no" } := by
  unfold cardsFor
  constructor
  · rintro ⟨hc, htype⟩
    rcases List.mem_append.mp hc with h | h
    · exfalso
      by_cases hd : is_definition s
      · rw [if_pos hd] at h
        simp only [List.mem_singleton] at h
        rw [h] at htype
        simp at htype
      · rw [if_neg hd] at h
        simp at h
    · cases hg : generate_cloze s with
      | none => rw [hg] at h; simp at h
      | some t =>
        rw [hg] at h
        replace h : c ∈ (if (t != "") = true then
            [({ type := "cloze", front := t, back := "", sect := sect,
                approved := "no" } : Card)] else []) := h
        by_cases hne : t = ""
        · subst hne; simp at h
        · rw [if_pos (by simpa using hne)] at h
          simp only [List.mem_singleton] at h
          exact ⟨t, rfl, hne, h⟩
  · rintro ⟨t, hg, hne, rfl⟩
    refine ⟨List.mem_append.mpr (Or.inr ?_), rfl⟩
    rw [hg]
    show _ ∈ (if (t != "") = true then
        [({ type := "cloze", front := t, back := "", sect := sect,
            approved := "no" } : Card)] else [])
    rw [if_pos (by simpa using hne)]
    simp

/-- A member of `cardsFor` with type `"basic"` is exactly a firing of
`is_definition`, packaged with the `generate_basic_card` front and back. -/
theorem mem_cardsFor_basic (sect s : String) (c : Card) :
    (c ∈ cardsFor sect s ∧ c.type = "basic") ↔
      is_definition s = true ∧
        c = { type := "basic", front := (generate_basic_card s).1,
              back := (generate_basic_card s).2, sect := sect, approved := "no" } := by
  unfold cardsFor
  constructor
  · rintro ⟨hc, htype⟩
    rcases List.mem_append.mp hc with h | h
    · by_cases hd : is_definition s
      · rw [if_pos hd] at h
        simp only [List.mem_singleton] at h
        exact ⟨hd, h⟩
      · rw [if_neg hd] at h
        simp at h
    · exfalso
      cases hg : generate_cloze s with
      | none => rw [hg] at h; simp at h
      | some t =>
        rw [hg] at h
        replace h : c ∈ (if (t != "") = true then
            [({ type := "cloze", front := t, back := "", sect := sect,
                approved := "no" } : Card)] else []) := h
        by_cases hne : (t != "") = true
        · rw [if_pos hne] at h
          simp only [List.mem_singleton] at h
          rw [h] at htype
          simp at htype
        · rw [if_neg hne] at h
          simp at h
  · rintro ⟨hd, rfl⟩
    exact ⟨List.mem_append.mpr (Or.inl (by rw [if_pos hd]; simp)), rfl⟩

/-- The firing condition of `generate_cloze`: at least 10 words and a word of
length at least 6 that no word exceeds. -/
theorem generate_cloze_isSome (s : String) :
    (generate_cloze s).isSome = true ↔
      (10 ≤ (pySplit s).length ∧
        ∃ w ∈ pySplit s, 6 ≤ w.length ∧ ∀ v ∈ pySplit s, v.length ≤ w.length) := by
  cases hps : pySplit s with
  | nil => simp [generate_cloze, hps]
  | cons w ws =>
    by_cases hlen : (w :: ws).length < 10
    · simp only [generate_cloze, hps, if_pos hlen, Option.isSome_none, Bool.false_eq_true,
        false_iff, not_and]
      intro h10
      omega
    · obtain ⟨pre, post, heq, hpre, hall⟩ := maxByLen_split ws w
      by_cases hk : (maxByLen w ws).length < 6
      · simp only [generate_cloze, hps, if_neg hlen, if_pos hk, Option.isSome_none,
          Bool.false_eq_true, false_iff, not_and]
        intro _
        rintro ⟨w', hw', h6, hmax⟩
        have := hall w' hw'
        omega
      · simp only [generate_cloze, hps, if_neg hlen, if_neg hk, Option.isSome_some, true_iff]
        refine ⟨by omega, maxByLen w ws, ?_, by omega, hall⟩
        rw [heq]
        exact List.mem_append.mpr (Or.inr (List.mem_cons_self _ _))

/-- Value description of a successful `generate_cloze`: the result is the
sentence with the leftmost occurrence of the first longest word replaced by
the cloze marker, and it is never the empty string. -/
theorem generate_cloze_some (s t : String) (h : generate_cloze s = some t) :
    t ≠ "" ∧
    ∃ key u v,
      (∃ pre post, pySplit s = pre ++ key :: post ∧
        (∀ w ∈ pre, w.length < key.length) ∧
        (∀ w ∈ pySplit s, w.length ≤ key.length)) ∧
      6 ≤ key.length ∧ 10 ≤ (pySplit s).length ∧
      s.data = u ++ key.data ++ v ∧
      (∀ u' v', s.data = u' ++ key.data ++ v' → u.length ≤ u'.length) ∧
      t = String.mk (u ++ ("\x7b\x7bc1::" ++ key ++ "\x7d\x7d").data ++ v) := by
  cases hps : pySplit s with
  | nil => rw [generate_cloze, hps] at h; simp at h
  | cons w ws =>
    rw [generate_cloze, hps] at h
    by_cases hlen : (w :: ws).length < 10
    · rw [if_pos hlen] at h; simp at h
    · rw [if_neg hlen] at h
      replace h : (if (maxByLen w ws).length < 6 then none
          else some (pyReplaceFirst s (maxByLen w ws)
            ("\x7b\x7bc1::" ++ maxByLen w ws ++ "\x7d\x7d"))) = some t := h
      by_cases hk : (maxByLen w ws).length < 6
      · rw [if_pos hk] at h; simp at h
      · rw [if_neg hk] at h
        simp only [Option.some.injEq] at h
        obtain ⟨pre, post, heq, hpre, hall⟩ := maxByLen_split ws w
        have hmem : maxByLen w ws ∈ pySplit s := by
          rw [hps, heq]
          exact List.mem_append.mpr (Or.inr (List.mem_cons_self _ _))
        obtain ⟨u0, v0, hocc⟩ := exists_of_mem_pySplit _ s hmem
        obtain ⟨u, v, hu, hmin, hrep⟩ :=
          replaceFirstL_found (maxByLen w ws).data
            ("\x7b\x7bc1::" ++ maxByLen w ws ++ "\x7d\x7d").data s.data ⟨u0, v0, hocc⟩
        have ht : t = String.mk
            (u ++ ("\x7b\x7bc1::" ++ maxByLen w ws ++ "\x7d\x7d").data ++ v) := by
          rw [← h]
          unfold pyReplaceFirst
          rw [hrep]
        constructor
        · intro habs
          rw [habs] at ht
          have : ("" : String).data =
              u ++ ("\x7b\x7bc1::" ++ maxByLen w ws ++ "\x7d\x7d").data ++ v := by
            rw [ht]
          simp [String.data_append] at this
        · exact ⟨maxByLen w ws, u, v, ⟨pre, post, heq, hpre, hall⟩,
            by omega, by omega, hu, hmin, ht⟩

/-- C1: a cloze card is emitted for a sentence exactly when it has at least
10 whitespace-delimited words and its longest word (ties broken by first
occurrence in word order) has length at least 6; the emitted card has type
`"cloze"`, empty back, the pair's section, approved `"no"`, and its front is
the sentence with the leftmost occurrence of that longest word replaced by
the `\x7b\x7bc1::word\x7d\x7d` marker, all other text unchanged. -/
theorem C1_cloze (sect s : String) :
    ((∃ c ∈ cardsFor sect s, c.type = "cloze") ↔
      (10 ≤ (pySplit s).length ∧
        ∃ w ∈ pySplit s, 6 ≤ w.length ∧ ∀ v ∈ pySplit s, v.length ≤ w.length)) ∧
    (∀ c ∈ cardsFor sect s, c.type = "cloze" →
      c.back = "" ∧ c.sect = sect ∧ c.approved = "no" ∧
      ∃ key u v,
        (∃ pre post, pySplit s = pre ++ key :: post ∧
          (∀ w ∈ pre, w.length < key.length) ∧
          (∀ w ∈ pySplit s, w.length ≤ key.length)) ∧
        6 ≤ key.length ∧
        s.data = u ++ key.data ++ v ∧
        (∀ u' v', s.data = u' ++ key.data ++ v' → u.length ≤ u'.length) ∧
        c.front = String.mk (u ++ ("\x7b\x7bc1::" ++ key ++ "\x7d\x7d").data ++ v)) := by
  constructor
  · constructor
    · rintro ⟨c, hc, htype⟩
      obtain ⟨t, hg, -, -⟩ := (mem_cardsFor_cloze sect s c).mp ⟨hc, htype⟩
      exact (generate_cloze_isSome s).mp (by rw [hg]; rfl)
    · intro hfires
      obtain ⟨t, ht⟩ := Option.isSome_iff_exists.mp ((generate_cloze_isSome s).mpr hfires)
      obtain ⟨hne, -⟩ := generate_cloze_some s t ht
      refine ⟨{ type := "cloze", front := t, back := "", sect := sect, approved := "no" },
        ?_, rfl⟩
      exact ((mem_cardsFor_cloze sect s _).mpr ⟨t, ht, hne, rfl⟩).1
  · intro c hc htype
    obtain ⟨t, hg, hne, rfl⟩ := (mem_cardsFor_cloze sect s c).mp ⟨hc, htype⟩
    obtain ⟨-, key, u, v, hdec, h6, -, hocc, hmin, hval⟩ := generate_cloze_some s t hg
    exact ⟨rfl, rfl, rfl, key, u, v, hdec, h6, hocc, hmin, hval⟩

/-- Concrete instance of `C1_cloze`: an 11-word sentence whose unique longest
word is `"emmagatzemada"`. -/
theorem C1_cloze_witness :
    (({ type := "cloze",
        front := "Els ribosomes sintetitzen proteïnes a partir de la informació genètica \x7b\x7bc1::emmagatzemada\x7d\x7d",
        back := "", sect := "Secció", approved := "no" } : Card)).back = "" ∧
    (({ type := "cloze",
        front := "Els ribosomes sintetitzen proteïnes a partir de la informació genètica \x7b\x7bc1::emmagatzemada\x7d\x7d",
        back := "", sect := "Secció", approved := "no" } : Card)).sect = "Secció" ∧
    (({ type := "cloze",
        front := "Els ribosomes sintetitzen proteïnes a partir de la informació genètica \x7b\x7bc1::emmagatzemada\x7d\x7d",
        back := "", sect := "Secció", approved := "no" } : Card)).approved = "no" ∧
    ∃ key u v,
      (∃ pre post, pySplit "Els ribosomes sintetitzen proteïnes a partir de la informació genètica emmagatzemada" = pre ++ key :: post ∧
        (∀ w ∈ pre, w.length < key.length) ∧
        (∀ w ∈ pySplit "Els ribosomes sintetitzen proteïnes a partir de la informació genètica emmagatzemada", w.length ≤ key.length)) ∧
      6 ≤ key.length ∧
      ("Els ribosomes sintetitzen proteïnes a partir de la informació genètica emmagatzemada" : String).data = u ++ key.data ++ v ∧
      (∀ u' v', ("Els ribosomes sintetitzen proteïnes a partir de la informació genètica emmagatzemada" : String).data = u' ++ key.data ++ v' → u.length ≤ u'.length) ∧
      (({ type := "cloze",
          front := "Els ribosomes sintetitzen proteïnes a partir de la informació genètica \x7b\x7bc1::emmagatzemada\x7d\x7d",
          back := "", sect := "Secció", approved := "no" } : Card)).front =
        String.mk (u ++ ("\x7b\x7bc1::" ++ key ++ "\x7d\x7d").data ++ v) :=
  (C1_cloze "Secció"
    "Els ribosomes sintetitzen proteïnes a partir de la informació genètica emmagatzemada").2
    _ (by decide) (by decide)

/-- `is_definition` unfolded to the literal prefix disjunction and word
count. -/
theorem is_definition_iff (s : String) :
    is_definition s = true ↔
      (((∃ t, s.data = "Es denomina".data ++ t) ∨ (∃ t, s.data = "És".data ++ t) ∨
        (∃ t, s.data = "Es produeix".data ++ t) ∨ (∃ t, s.data = "La".data ++ t) ∨
        (∃ t, s.data = "El".data ++ t) ∨ (∃ t, s.data = "Els".data ++ t) ∨
        (∃ t, s.data = "Les".data ++ t)) ∧ 8 < (pySplit s).length) := by
  unfold is_definition DEFINITION_STARTERS
  simp only [List.any_cons, List.any_nil, Bool.and_eq_true, Bool.or_eq_true,
    decide_eq_true_eq, startsWithL_iff, Bool.false_eq_true, or_false]

/-- C2: a basic definition card is emitted for a sentence exactly when it
starts with one of the seven Catalan definition prefixes and has strictly
more than 8 whitespace-delimited words; the emitted card has type `"basic"`,
front `"Defineix: "` followed by the first five words joined with single
spaces followed by `"..."`, back the unchanged sentence, the pair's section,
and approved `"no"`. -/
theorem C2_basic (sect s : String) :
    ((∃ c ∈ cardsFor sect s, c.type = "basic") ↔
      (((∃ t, s.data = "Es denomina".data ++ t) ∨ (∃ t, s.data = "És".data ++ t) ∨
        (∃ t, s.data = "Es produeix".data ++ t) ∨ (∃ t, s.data = "La".data ++ t) ∨
        (∃ t, s.data = "El".data ++ t) ∨ (∃ t, s.data = "Els".data ++ t) ∨
        (∃ t, s.data = "Les".data ++ t)) ∧ 8 < (pySplit s).length)) ∧
    (∀ c ∈ cardsFor sect s, c.type = "basic" →
      c.front = "Defineix: " ++ (pyJoin " " ((pySplit s).take 5) ++ "...") ∧
      c.back = s ∧ c.sect = sect ∧ c.approved = "no") := by
  constructor
  · constructor
    · rintro ⟨c, hc, htype⟩
      obtain ⟨hd, -⟩ := (mem_cardsFor_basic sect s c).mp ⟨hc, htype⟩
      exact (is_definition_iff s).mp hd
    · intro hcond
      refine ⟨_, ((mem_cardsFor_basic sect s _).mpr
        ⟨(is_definition_iff s).mpr hcond, rfl⟩).1, rfl⟩
  · intro c hc htype
    obtain ⟨-, rfl⟩ := (mem_cardsFor_basic sect s c).mp ⟨hc, htype⟩
    exact ⟨rfl, rfl, rfl, rfl⟩

/-- Concrete instance of `C2_basic`: a 13-word sentence starting with
`"La"`. -/
theorem C2_basic_witness :
    (({ type := "basic",
        front := "Defineix: La fotosíntesi és el procés...",
        back := "La fotosíntesi és el procés pel qual les plantes converteixen llum en energia química",
        sect := "Biologia", approved := "no" } : Card)).front =
      "Defineix: " ++ (pyJoin " "
        ((pySplit "La fotosíntesi és el procés pel qual les plantes converteixen llum en energia química").take 5) ++ "...") ∧
    (({ type := "basic",
        front := "Defineix: La fotosíntesi és el procés...",
        back := "La fotosíntesi és el procés pel qual les plantes converteixen llum en energia química",
        sect := "Biologia", approved := "no" } : Card)).back =
      "La fotosíntesi és el procés pel qual les plantes converteixen llum en energia química" ∧
    (({ type := "basic",
        front := "Defineix: La fotosíntesi és el procés...",
        back := "La fotosíntesi és el procés pel qual les plantes converteixen llum en energia química",
        sect := "Biologia", approved := "no" } : Card)).sect = "Biologia" ∧
    (({ type := "basic",
        front := "Defineix: La fotosíntesi és el procés...",
        back := "La fotosíntesi és el procés pel qual les plantes converteixen llum en energia química",
        sect := "Biologia", approved := "no" } : Card)).approved = "no" :=
  (C2_basic "Biologia"
    "La fotosíntesi és el procés pel qual les plantes converteixen llum en energia química").2
    _ (by decide) (by decide)

/-- The loop of the sectioner, characterized positionally: position `i`
contributes nothing when it holds a heading, and otherwise its paragraph
tagged with the label of the last heading strictly before it (or the
incoming label `cur`). -/
theorem detectAux_eq (cur : String) (ps : List String) :
    detectAux cur ps =
      (List.range ps.length).filterMap (fun i =>
        (ps[i]?).bind (fun p =>
          if (sectionHead p).isSome then none
          else some (((ps.take i).filterMap sectionHead).getLastD cur, p))) := by
  induction ps generalizing cur with
  | nil => simp [detectAux]
  | cons p ps ih =>
    rw [List.length_cons, List.range_succ_eq_map, List.filterMap_cons]
    have htail : ∀ (next : String),
        (((p :: ps).take 0).filterMap sectionHead).getLastD cur = cur →
        (List.filterMap
          (fun i =>
            ((p :: ps)[i]?).bind (fun q =>
              if (sectionHead q).isSome then none
              else some ((((p :: ps).take i).filterMap sectionHead).getLastD cur, q)))
          (List.map Nat.succ (List.range ps.length))) =
        (List.filterMap
          (fun i =>
            (ps[i]?).bind (fun q =>
              if (sectionHead q).isSome then none
              else some (((ps.take i).filterMap sectionHead).getLastD next, q)))
          (List.range ps.length)) →
        True := fun _ _ _ => trivial
    clear htail
    cases hsh : sectionHead p with
    | some l =>
      have hhead : ((p :: ps)[0]?).bind (fun q =>
          if (sectionHead q).isSome then none
          else some ((((p :: ps).take 0).filterMap sectionHead).getLastD cur, q)) = none := by
        simp [hsh]
      rw [hhead]
      have hstep : detectAux cur (p :: ps) = detectAux l ps := by
        simp [detectAux, hsh]
      rw [hstep, ih l, List.filterMap_map]
      refine List.filterMap_congr ?_
      intro i _
      simp only [Function.comp_apply, List.getElem?_cons_succ, Nat.succ_eq_add_one,
        List.take_succ_cons, List.filterMap_cons, hsh, List.getLastD_cons]
    | none =>
      have hhead : ((p :: ps)[0]?).bind (fun q =>
          if (sectionHead q).isSome then none
          else some ((((p :: ps).take 0).filterMap sectionHead).getLastD cur, q)) =
          some (cur, p) := by
        simp [hsh]
      rw [hhead]
      have hstep : detectAux cur (p :: ps) = (cur, p) :: detectAux cur ps := by
        simp [detectAux, hsh]
      rw [hstep, ih cur, List.filterMap_map]
      refine congrArg ((cur, p) :: ·) ?_
      refine List.filterMap_congr ?_
      intro i _
      simp only [Function.comp_apply, List.getElem?_cons_succ, Nat.succ_eq_add_one,
        List.take_succ_cons, List.filterMap_cons, hsh]

/-- C3: the sectioner returns exactly the non-heading paragraphs, one pair
each, in original order, each tagged with the label of the most recent
preceding heading, or `"General"` when no heading precedes. -/
theorem C3_sections (ps : List String) :
    detect_sections ps =
      (List.range ps.length).filterMap (fun i =>
        (ps[i]?).bind (fun p =>
          if (sectionHead p).isSome then none
          else some (((ps.take i).filterMap sectionHead).getLastD "General", p))) :=
  detectAux_eq "General" ps

/-- Whitespace characters are not digits. -/
theorem isDigit_false_of_space (c : Char) (h : pyIsSpace c = true) : c.isDigit = false := by
  revert h
  simp only [pyIsSpace, Bool.or_eq_true, decide_eq_true_eq]
  rintro (((((rfl | rfl) | rfl) | rfl) | rfl) | rfl) <;> rfl

/-- `takeWhile`/`dropWhile` on a concatenation whose first part satisfies the
predicate throughout and whose second part starts with a failing element. -/
theorem takeWhile_dropWhile_append (p : Char → Bool) (l1 l2 : List Char)
    (h1 : ∀ c ∈ l1, p c = true) (h2 : ∀ c, l2.head? = some c → p c = false) :
    (l1 ++ l2).takeWhile p = l1 ∧ (l1 ++ l2).dropWhile p = l2 := by
  induction l1 with
  | nil =>
    cases l2 with
    | nil => simp [List.takeWhile, List.dropWhile]
    | cons c cs =>
      have := h2 c rfl
      simp [List.takeWhile, List.dropWhile, this]
  | cons c cs ih =>
    have hc := h1 c (by simp)
    have ⟨iht, ihd⟩ := ih (fun d hd => h1 d (by simp [hd]))
    simp [List.takeWhile, List.dropWhile, hc, iht, ihd]

/-- `List.intercalate` with a dot separator, unfolded to a flat form. -/
theorem intercalate_dot (x : List Char) (xs : List (List Char)) :
    List.intercalate ['.'] (x :: xs) = x ++ (xs.map (fun n => '.' :: n)).flatten := by
  induction xs generalizing x with
  | nil => simp [List.intercalate]
  | cons y ys ih =>
    have h : List.intercalate ['.'] (x :: y :: ys) =
        x ++ ['.'] ++ List.intercalate ['.'] (y :: ys) := by
      simp [List.intercalate, List.intersperse]
    rw [h, ih y]
    simp

/-- One unfolding step of `dotRuns` at a leading period. -/
theorem dotRuns_cons_dot (X : List Char) :
    dotRuns ('.' :: X) =
      if (X.takeWhile Char.isDigit).isEmpty then ([], '.' :: X)
      else (('.' :: X.takeWhile Char.isDigit) :: (dotRuns (X.dropWhile Char.isDigit)).1,
            (dotRuns (X.dropWhile Char.isDigit)).2) := by
  rw [dotRuns]
  simp only [reduceIte]

/-- `dotRuns` on a sequence of dotted digit runs followed by the heading's
final period: it collects exactly the runs. -/
theorem dotRuns_shape (tl : List (List Char)) (tail0 : List Char)
    (htl : ∀ n ∈ tl, n ≠ [] ∧ ∀ c ∈ n, c.isDigit = true)
    (htail : ∀ c, tail0.head? = some c → c.isDigit = false) :
    dotRuns ((tl.map (fun n => '.' :: n)).flatten ++ '.' :: tail0) =
      (tl.map (fun n => '.' :: n), '.' :: tail0) := by
  induction tl with
  | nil =>
    simp only [List.map_nil, List.flatten_nil, List.nil_append]
    rw [dotRuns_cons_dot]
    obtain ⟨ht, -⟩ := takeWhile_dropWhile_append Char.isDigit [] tail0 (by simp) htail
    simp only [List.nil_append] at ht
    simp [ht]
  | cons n ns ih =>
    obtain ⟨hne, hdig⟩ := htl n (by simp)
    simp only [List.map_cons, List.flatten_cons, List.cons_append, List.append_assoc]
    rw [dotRuns_cons_dot]
    have hnext : ∀ c, ((ns.map (fun n => '.' :: n)).flatten ++ '.' :: tail0).head? = some c →
        c.isDigit = false := by
      intro c hc
      have hh : ((ns.map (fun n => '.' :: n)).flatten ++ '.' :: tail0).head? = some '.' := by
        cases ns <;> simp
      rw [hh] at hc
      cases hc
      rfl
    obtain ⟨ht, hd⟩ := takeWhile_dropWhile_append Char.isDigit n
      ((ns.map (fun n => '.' :: n)).flatten ++ '.' :: tail0) hdig hnext
    rw [ht, hd]
    have hje : n.isEmpty = false := by
      cases n with
      | nil => exact absurd rfl hne
      | cons _ _ => rfl
    rw [if_neg (by simp [hje])]
    rw [ih (fun m hm => htl m (by simp [hm]))]

/-- `wsDotPlusGo` when position `j` lands on a non-newline character: group 3
is the newline-free run from there. -/
theorem wsDotPlusGo_hit (r : List Char) (j : Nat) (lc : Char) (lrest : List Char)
    (hdrop : r.drop j = lc :: lrest) (hlc : lc ≠ '\n') :
    wsDotPlusGo r j = some ((r.drop j).takeWhile (fun d => d ≠ '\n')) := by
  cases j with
  | zero =>
    rw [List.drop_zero] at hdrop
    subst hdrop
    simp [wsDotPlusGo, hlc]
  | succ j' =>
    simp only [wsDotPlusGo, hdrop]
    simp [hlc]

/-- `wsDotPlus` against whitespace followed by a newline-free label starting
with a non-whitespace character: it returns exactly the label. -/
theorem wsDotPlus_label (sp : List Char) (lc : Char) (lrest : List Char)
    (hsp : ∀ c ∈ sp, pyIsSpace c = true)
    (hlc : pyIsSpace lc = false) (hnl : '\n' ∉ lc :: lrest) :
    wsDotPlus (sp ++ lc :: lrest) = some (lc :: lrest) := by
  have hhead : ∀ c, (lc :: lrest).head? = some c → pyIsSpace c = false := by
    intro c hc
    simp only [List.head?_cons, Option.some.injEq] at hc
    rw [← hc]
    exact hlc
  obtain ⟨ht, -⟩ := takeWhile_dropWhile_append pyIsSpace sp (lc :: lrest) hsp hhead
  have hdrop : (sp ++ lc :: lrest).drop sp.length = lc :: lrest := List.drop_left sp _
  have hlcn : lc ≠ '\n' := by
    intro h
    rw [h] at hlc
    simp [pyIsSpace] at hlc
  rw [wsDotPlus, ht, wsDotPlusGo_hit _ _ lc lrest hdrop hlcn, hdrop]
  have hall : ∀ c ∈ lc :: lrest, (fun d => decide (d ≠ '\n')) c = true := by
    intro c hc
    simp only [decide_eq_true_eq]
    intro h
    rw [h] at hc
    exact hnl hc
  rw [List.takeWhile_eq_self_iff.mpr hall]

/-- `sectionBacktrack` succeeds immediately when the attempt with all
repetitions kept succeeds. -/
theorem sectionBacktrack_full (runs : List (List Char)) (g1 rest : List Char)
    (res : List Char × List Char)
    (h : sectionAttempt (g1 ++ runs.flatten) rest = some res) :
    sectionBacktrack g1 runs rest = some res := by
  induction runs generalizing g1 with
  | nil =>
    simp only [List.flatten_nil, List.append_nil] at h
    simpa [sectionBacktrack] using h
  | cons run rs ih =>
    have h' : sectionAttempt ((g1 ++ run) ++ rs.flatten) rest = some res := by
      rw [List.append_assoc]
      simpa [List.flatten_cons] using h
    rw [sectionBacktrack, ih (g1 ++ run) h']

/-- The regex on a well-shaped heading paragraph: group 1 is the whole dotted
number, group 3 the label. -/
theorem sectionMatch_heading (hd : List Char) (tl : List (List Char)) (sp : List Char)
    (lc : Char) (lrest : List Char)
    (hhd : hd ≠ [] ∧ ∀ c ∈ hd, c.isDigit = true)
    (htl : ∀ n ∈ tl, n ≠ [] ∧ ∀ c ∈ n, c.isDigit = true)
    (hsp : ∀ c ∈ sp, pyIsSpace c = true)
    (hlc : pyIsSpace lc = false) (hlcd : lc.isDigit = false)
    (hnl : '\n' ∉ lc :: lrest) :
    sectionMatch (hd ++ (tl.map (fun n => '.' :: n)).flatten ++ '.' :: sp ++ lc :: lrest) =
      some (hd ++ (tl.map (fun n => '.' :: n)).flatten, lc :: lrest) := by
  obtain ⟨hhne, hhdig⟩ := hhd
  have htail0 : ∀ c, (sp ++ lc :: lrest).head? = some c → c.isDigit = false := by
    intro c hc
    cases sp with
    | nil =>
      simp only [List.nil_append, List.head?_cons, Option.some.injEq] at hc
      rw [← hc]; exact hlcd
    | cons s ss =>
      simp only [List.cons_append, List.head?_cons, Option.some.injEq] at hc
      rw [← hc]
      exact isDigit_false_of_space s (hsp s (by simp))
  have hmidhead : ∀ c,
      ((tl.map (fun n => '.' :: n)).flatten ++ '.' :: sp ++ lc :: lrest).head? = some c →
      c.isDigit = false := by
    intro c hc
    have hh : ((tl.map (fun n => '.' :: n)).flatten ++ '.' :: sp ++ lc :: lrest).head? =
        some '.' := by
      cases tl <;> simp
    rw [hh] at hc
    cases hc
    rfl
  obtain ⟨ht, hdw⟩ := takeWhile_dropWhile_append Char.isDigit hd
    ((tl.map (fun n => '.' :: n)).flatten ++ '.' :: sp ++ lc :: lrest) hhdig hmidhead
  have hje : hd.isEmpty = false := by
    cases hd with
    | nil => exact absurd rfl hhne
    | cons _ _ => rfl
  rw [sectionMatch]
  simp only [← List.append_assoc] at ht hdw ⊢
  rw [ht, hdw]
  rw [if_neg (by simp [hje])]
  simp only [List.cons_append, List.append_assoc]
  rw [dotRuns_shape tl (sp ++ lc :: lrest) htl htail0]
  refine sectionBacktrack_full _ _ _ _ ?_
  rw [sectionAttempt]
  rw [wsDotPlus_label sp lc lrest hsp hlc hnl]
  rfl

/-- C4: a paragraph made of one or more dot-separated integers, a period,
optional whitespace, and a non-empty label (not starting with whitespace or a
digit, newline-free) matches the heading pattern, contributes no sentence,
and sets the active section to the dotted number joined by a single space to
the label; concretely, `"3.1. Enzims"` yields section `"3.1 Enzims"`. -/
theorem C4_heading (hd : String) (tl : List String) (sp : List Char) (label : String)
    (cur : String) (rest : List String)
    (hhd : hd.data ≠ [] ∧ ∀ c ∈ hd.data, c.isDigit = true)
    (htl : ∀ n ∈ tl, n.data ≠ [] ∧ ∀ c ∈ n.data, c.isDigit = true)
    (hsp : ∀ c ∈ sp, pyIsSpace c = true)
    (hlab : ∃ lc lrest, label.data = lc :: lrest ∧ pyIsSpace lc = false ∧ lc.isDigit = false)
    (hnl : '\n' ∉ label.data) :
    (sectionHead (pyJoin "." (hd :: tl) ++ "." ++ String.mk sp ++ label) =
      some (pyJoin "." (hd :: tl) ++ " " ++ label) ∧
    detectAux cur ((pyJoin "." (hd :: tl) ++ "." ++ String.mk sp ++ label) :: rest) =
      detectAux (pyJoin "." (hd :: tl) ++ " " ++ label) rest) ∧
    sectionHead "3.1. Enzims" = some "3.1 Enzims" ∧
    detectAux cur ("3.1. Enzims" :: rest) = detectAux "3.1 Enzims" rest := by
  obtain ⟨lc, lrest, hld, hlc, hlcd⟩ := hlab
  have hjoin : (pyJoin "." (hd :: tl)).data =
      hd.data ++ ((tl.map String.data).map (fun n => '.' :: n)).flatten := by
    show List.intercalate ['.'] ((hd :: tl).map String.data) = _
    rw [List.map_cons, intercalate_dot]
  have hpd : (pyJoin "." (hd :: tl) ++ "." ++ String.mk sp ++ label).data =
      hd.data ++ ((tl.map String.data).map (fun n => '.' :: n)).flatten ++
        '.' :: sp ++ lc :: lrest := by
    simp only [String.data_append, hjoin, hld]
    simp
  have hmatch := sectionMatch_heading hd.data (tl.map String.data) sp lc lrest
    hhd (by
      intro n hn
      obtain ⟨m, hm, rfl⟩ := List.mem_map.mp hn
      exact htl m hm) hsp hlc hlcd (by rw [← hld]; exact hnl)
  have hhead : sectionHead (pyJoin "." (hd :: tl) ++ "." ++ String.mk sp ++ label) =
      some (pyJoin "." (hd :: tl) ++ " " ++ label) := by
    rw [sectionHead, hpd, hmatch]
    simp only [Option.map_some']
    congr 1
    have h1 : String.mk (hd.data ++ ((tl.map String.data).map (fun n => '.' :: n)).flatten) =
        pyJoin "." (hd :: tl) := by
      rw [← hjoin]
    have h2 : String.mk (lc :: lrest) = label := by
      rw [← hld]
    rw [h1, h2]
  have hconc : sectionHead "3.1. Enzims" = some "3.1 Enzims" := by
    have h31 := sectionMatch_heading "3".data ["1".data] [' '] 'E' "nzims".data
      (by decide) (by decide) (by decide) (by decide) (by decide) (by decide)
    rw [sectionHead]
    have hdata : ("3.1. Enzims" : String).data =
        "3".data ++ (["1".data].map (fun n => '.' :: n)).flatten ++ '.' :: [' '] ++
          'E' :: "nzims".data := by decide
    rw [hdata, h31]
    rfl
  refine ⟨⟨hhead, by simp [detectAux, hhead]⟩, hconc, by simp [detectAux, hconc]⟩

/-- Concrete instance of `C4_heading` at `"3.1. Enzims"` built from its
parts. -/
theorem C4_heading_witness :
    (sectionHead (pyJoin "." ["3", "1"] ++ "." ++ String.mk [' '] ++ "Enzims") =
      some (pyJoin "." ["3", "1"] ++ " " ++ "Enzims") ∧
    detectAux "General" ((pyJoin "." ["3", "1"] ++ "." ++ String.mk [' '] ++ "Enzims") :: []) =
      detectAux (pyJoin "." ["3", "1"] ++ " " ++ "Enzims") []) ∧
    sectionHead "3.1. Enzims" = some "3.1 Enzims" ∧
    detectAux "General" ("3.1. Enzims" :: []) = detectAux "3.1 Enzims" [] :=
  C4_heading "3" ["1"] [' '] "Enzims" "General" []
    (by decide) (by decide) (by decide) ⟨'E', "nzims".data, by decide, by decide, by decide⟩
    (by decide)

/-- C7: the measurement-like paragraph `"3.5 kg de mostra"` is misclassified
as a heading: it matches the pattern (group 1 `"3"`, group 3
`"5 kg de mostra"`), contributes no sentence, and the active section becomes
`"3 5 kg de mostra"` for the following paragraphs. -/
theorem C7_measurement (cur : String) (rest : List String) :
    sectionHead "3.5 kg de mostra" = some "3 5 kg de mostra" ∧
    detectAux cur ("3.5 kg de mostra" :: rest) = detectAux "3 5 kg de mostra" rest := by
  have h : sectionHead "3.5 kg de mostra" = some "3 5 kg de mostra" := by
    simp +decide [sectionHead, sectionMatch, dotRuns, sectionBacktrack, sectionAttempt,
      wsDotPlus, wsDotPlusGo]
  exact ⟨h, by simp [detectAux, h]⟩

/-- Field invariants of any card produced for one pair: `approved` is
`"no"`, the section is the pair's, and the type is basic or cloze. -/
theorem cardsFor_fields (sect s : String) (c : Card) (h : c ∈ cardsFor sect s) :
    c.approved = "no" ∧ c.sect = sect ∧ (c.type = "basic" ∨ c.type = "cloze") := by
  unfold cardsFor at h
  rcases List.mem_append.mp h with h1 | h1
  · by_cases hd : is_definition s
    · rw [if_pos hd] at h1
      simp only [List.mem_singleton] at h1
      subst h1
      exact ⟨rfl, rfl, Or.inl rfl⟩
    · rw [if_neg hd] at h1
      simp at h1
  · cases hg : generate_cloze s with
    | none => rw [hg] at h1; simp at h1
    | some t =>
      rw [hg] at h1
      replace h1 : c ∈ (if (t != "") = true then
          [({ type := "cloze", front := t, back := "", sect := sect,
              approved := "no" } : Card)] else []) := h1
      by_cases hne : (t != "") = true
      · rw [if_pos hne] at h1
        simp only [List.mem_singleton] at h1
        subst h1
        exact ⟨rfl, rfl, Or.inr rfl⟩
      · rw [if_neg hne] at h1
        simp at h1

/-- C8: every card produced by the generator has `approved = "no"`, carries
the section label of the pair it came from, and has type `"basic"` or
`"cloze"`. -/
theorem C8_card_invariants (st : List (String × String)) :
    ∀ c ∈ generate_cards st,
      c.approved = "no" ∧ (c.type = "basic" ∨ c.type = "cloze") ∧
      ∃ p ∈ st, c.sect = p.1 ∧ c ∈ cardsFor p.1 p.2 := by
  induction st with
  | nil => intro c hc; simp [generate_cards] at hc
  | cons p rest ih =>
    intro c hc
    obtain ⟨sect, s⟩ := p
    rw [generate_cards] at hc
    rcases List.mem_append.mp hc with h | h
    · obtain ⟨ha, hs, ht⟩ := cardsFor_fields sect s c h
      exact ⟨ha, ht, (sect, s), by simp, hs, h⟩
    · obtain ⟨ha, ht, q, hq, hsq, hcq⟩ := ih c h
      exact ⟨ha, ht, q, by simp [hq], hsq, hcq⟩

/-- Concrete instance of `C8_card_invariants` on a two-pair input, at the
cloze card of the second pair. -/
theorem C8_card_invariants_witness :
    (({ type := "cloze",
        front := "Els enzims catalitzen les reaccions del metabolisme cellular amb molta \x7b\x7bc1::especificitat\x7d\x7d",
        back := "", sect := "3.1 Enzims", approved := "no" } : Card)).approved = "no" ∧
    (({ type := "cloze",
        front := "Els enzims catalitzen les reaccions del metabolisme cellular amb molta \x7b\x7bc1::especificitat\x7d\x7d",
        back := "", sect := "3.1 Enzims", approved := "no" } : Card).type = "basic" ∨
     ({ type := "cloze",
        front := "Els enzims catalitzen les reaccions del metabolisme cellular amb molta \x7b\x7bc1::especificitat\x7d\x7d",
        back := "", sect := "3.1 Enzims", approved := "no" } : Card).type = "cloze") ∧
    ∃ p ∈ [("General", "El curt"),
           ("3.1 Enzims", "Els enzims catalitzen les reaccions del metabolisme cellular amb molta especificitat")],
      (({ type := "cloze",
          front := "Els enzims catalitzen les reaccions del metabolisme cellular amb molta \x7b\x7bc1::especificitat\x7d\x7d",
          back := "", sect := "3.1 Enzims", approved := "no" } : Card)).sect = p.1 ∧
      ({ type := "cloze",
         front := "Els enzims catalitzen les reaccions del metabolisme cellular amb molta \x7b\x7bc1::especificitat\x7d\x7d",
         back := "", sect := "3.1 Enzims", approved := "no" } : Card) ∈ cardsFor p.1 p.2 :=
  C8_card_invariants
    [("General", "El curt"),
     ("3.1 Enzims", "Els enzims catalitzen les reaccions del metabolisme cellular amb molta especificitat")]
    _ (by decide)

/-- C9: the generator is the in-order concatenation of each pair's cards,
and one pair contributes `[]`, one basic card, one cloze card, or a basic
card immediately followed by a cloze card. -/
theorem C9_card_order (st : List (String × String)) :
    generate_cards st = st.flatMap (fun p => cardsFor p.1 p.2) ∧
    ∀ sect s, ((cardsFor sect s).map (fun c => c.type)) ∈
      ([[], ["basic"], ["cloze"], ["basic", "cloze"]] : List (List String)) := by
  constructor
  · induction st with
    | nil => simp [generate_cards]
    | cons p rest ih =>
      obtain ⟨sect, s⟩ := p
      rw [generate_cards, ih]
      simp [List.flatMap_cons]
  · intro sect s
    have hcz : (List.map (fun c => c.type)
        (match generate_cloze s with
         | some cloze =>
           if cloze != "" then
             [({ type := "cloze", front := cloze, back := "", sect := sect,
                 approved := "no" } : Card)]
           else []
         | none => [])) = [] ∨
        (List.map (fun c => c.type)
        (match generate_cloze s with
         | some cloze =>
           if cloze != "" then
             [({ type := "cloze", front := cloze, back := "", sect := sect,
                 approved := "no" } : Card)]
           else []
         | none => [])) = ["cloze"] := by
      cases hg : generate_cloze s with
      | none => left; rfl
      | some t =>
        by_cases ht : t = ""
        · left; subst ht; rfl
        · right
          have hb : (t != "") = true := by simpa using ht
          show List.map (fun c => c.type)
            (if (t != "") = true then
              [({ type := "cloze", front := t, back := "", sect := sect,
                  approved := "no" } : Card)]
            else []) = ["cloze"]
          rw [if_pos hb]
          rfl
    unfold cardsFor
    rw [List.map_append]
    by_cases hd : is_definition s
    · rw [if_pos hd]
      rcases hcz with h | h <;> rw [h] <;> simp
    · rw [if_neg hd]
      rcases hcz with h | h <;> rw [h] <;> simp

/-! ## The CSV round trip -/

/-- Parsing the escaped body of a quoted field recovers it, provided what
follows the closing quote does not start with another quote. -/
theorem parseQuoted_esc (w rest : List Char) (hrest : ∀ r', rest ≠ '\"' :: r') :
    parseQuoted (escQ w ++ '\"' :: rest) = (w, rest) := by
  induction w with
  | nil =>
    cases rest with
    | nil => rfl
    | cons c rs =>
      have hc : c ≠ '\"' := by
        intro h
        exact hrest rs (by rw [h])
      simp only [escQ, List.nil_append]
      rw [parseQuoted.eq_def]
      simp [hc]
  | cons c w' ih =>
    by_cases hc : c = '\"'
    · subst hc
      simp only [escQ, if_pos rfl, List.cons_append]
      rw [parseQuoted.eq_def]
      simp [ih]
    · simp only [escQ, if_neg hc, List.cons_append]
      rw [parseQuoted.eq_def]
      simp [hc, ih]

/-- Parsing a serialized field recovers it, provided the remainder starts
with a comma, a carriage return, or is empty. -/
theorem parseFieldStart_write (f : String) (rest : List Char)
    (hrest : rest = [] ∨ (∃ r', rest = ',' :: r') ∨ (∃ r', rest = '\x0d' :: r')) :
    parseFieldStart (writeField f ++ rest) = (f.data, rest) := by
  have hrq : ∀ r', rest ≠ '\"' :: r' := by
    rintro r' rfl
    rcases hrest with h | ⟨r'', h⟩ | ⟨r'', h⟩ <;> simp at h
  by_cases hq : needsQuote f = true
  · rw [writeField, if_pos hq]
    have : ('\"' :: (escQ f.data ++ ['\"'])) ++ rest =
        '\"' :: (escQ f.data ++ '\"' :: rest) := by simp
    rw [this, parseFieldStart]
    rw [if_pos (by rfl)]
    simpa using parseQuoted_esc f.data rest hrq
  · rw [writeField, if_neg hq]
    have hnospec : ∀ c ∈ f.data, (fun c => !(c = ',' || c = '\x0d' || c = '\n')) c = true := by
      intro c hc
      have : ¬(c = ',' ∨ c = '\"' ∨ c = '\x0d' ∨ c = '\n') := by
        intro habs
        apply hq
        unfold needsQuote
        rw [List.any_eq_true]
        refine ⟨c, hc, ?_⟩
        rcases habs with h | h | h | h <;> simp [h]
      simp only [Bool.not_eq_true', Bool.or_eq_false_iff, decide_eq_false_iff_not]
      push_neg at this
      exact ⟨⟨this.1, this.2.2.1⟩, this.2.2.2⟩
    have hresthead : ∀ c, rest.head? = some c →
        (fun c => !(c = ',' || c = '\x0d' || c = '\n')) c = false := by
      intro c hc
      rcases hrest with h | ⟨r'', h⟩ | ⟨r'', h⟩
      · rw [h] at hc; simp at hc
      · rw [h] at hc
        simp only [List.head?_cons, Option.some.injEq] at hc
        simp [← hc]
      · rw [h] at hc
        simp only [List.head?_cons, Option.some.injEq] at hc
        simp [← hc]
    obtain ⟨ht, hdw⟩ := takeWhile_dropWhile_append _ f.data rest hnospec hresthead
    rw [parseFieldStart]
    rw [if_neg, ht, hdw]
    intro habs
    cases hfd : f.data with
    | nil =>
      rw [hfd] at habs
      simp only [List.nil_append] at habs
      rcases hrest with h | ⟨r'', h⟩ | ⟨r'', h⟩ <;> rw [h] at habs <;> simp at habs
    | cons c0 cs0 =>
      rw [hfd] at habs
      simp only [List.cons_append, List.head?_cons, Option.some.injEq] at habs
      apply hq
      unfold needsQuote
      rw [List.any_eq_true]
      refine ⟨c0, by rw [hfd]; simp, ?_⟩
      rw [habs]
      simp

/-- Consuming one comma-terminated field of a row. -/
theorem parseRowFuel_comma (n : Nat) (f : String) (tail : List Char) :
    parseRowFuel (n + 1) (writeField f ++ ',' :: tail) =
      ((f.data :: (parseRowFuel n tail).1), (parseRowFuel n tail).2) := by
  have h2 := parseFieldStart_write f (',' :: tail) (Or.inr (Or.inl ⟨tail, rfl⟩))
  simp only [parseRowFuel, h2]

/-- Consuming the final field of a row and the CR LF terminator. -/
theorem parseRowFuel_last (fuel : Nat) (f : String) (rest : List Char) :
    parseRowFuel fuel (writeField f ++ '\x0d' :: '\n' :: rest) = ([f.data], rest) := by
  have h2 := parseFieldStart_write f ('\x0d' :: '\n' :: rest)
    (Or.inr (Or.inr ⟨'\n' :: rest, rfl⟩))
  cases fuel with
  | zero => simp only [parseRowFuel, h2, rowEnd]
  | succ n =>
    simp only [parseRowFuel, h2, rowEnd]
    rfl

/-- Parsing a serialized five-field row recovers its fields and leaves the
rest of the input untouched. -/
theorem parseRowFuel_row5 (a b c d e : String) (rest : List Char) (n : Nat) :
    parseRowFuel (n + 4) (writeRow [a, b, c, d, e] ++ rest) =
      ([a.data, b.data, c.data, d.data, e.data], rest) := by
  have hne : ¬([a, b, c, d, e] = [""]) := by simp
  rw [writeRow, if_neg hne]
  have hshape : (rowBody [a, b, c, d, e] ++ ['\x0d', '\n']) ++ rest =
      writeField a ++ ',' :: (writeField b ++ ',' :: (writeField c ++ ',' ::
        (writeField d ++ ',' :: (writeField e ++ '\x0d' :: '\n' :: rest)))) := by
    simp [rowBody]
  rw [hshape]
  rw [show n + 4 = (n + 3) + 1 from rfl, parseRowFuel_comma]
  rw [show n + 3 = (n + 2) + 1 from rfl, parseRowFuel_comma]
  rw [show n + 2 = (n + 1) + 1 from rfl, parseRowFuel_comma]
  rw [parseRowFuel_comma]
  rw [parseRowFuel_last]

/-- A serialized row is never empty. -/
theorem writeRow_ne_nil (fs : List String) : writeRow fs ≠ [] := by
  unfold writeRow
  intro h
  simp at h

/-- A serialized five-field row has at least six characters. -/
theorem writeRow5_len (a b c d e : String) : 6 ≤ (writeRow [a, b, c, d, e]).length := by
  rw [writeRow, if_neg (by simp)]
  simp [rowBody, List.length_append]
  omega

/-- One unfolding step of the row-list parser on a non-empty input. -/
theorem parseRowsFuel_succ (fuel : Nat) (cs : List Char) (h : cs ≠ []) :
    parseRowsFuel (fuel + 1) cs =
      (parseRowFuel (cs.length + 1) cs).1 ::
        parseRowsFuel fuel ((parseRowFuel (cs.length + 1) cs).2) := by
  cases cs with
  | nil => exact absurd rfl h
  | cons c cs' => rfl

/-- Parsing the concatenation of serialized five-field rows recovers them
all, given fuel at least the number of rows. -/
theorem parseRowsFuel_rows (rs : List (List String)) (hr : ∀ r ∈ rs, r.length = 5) :
    ∀ fuel, rs.length ≤ fuel →
      parseRowsFuel fuel ((rs.map writeRow).flatten) =
        rs.map (fun r => r.map String.data) := by
  induction rs with
  | nil => intro fuel _; simp [parseRowsFuel]
  | cons r rs' ih =>
    intro fuel hfuel
    cases fuel with
    | zero => simp at hfuel
    | succ fuel' =>
      obtain ⟨a, b, c, d, e, rfl⟩ : ∃ a b c d e, r = [a, b, c, d, e] := by
        have h5 := hr r (by simp)
        match r, h5 with
        | [a, b, c, d, e], _ => exact ⟨a, b, c, d, e, rfl⟩
      simp only [List.map_cons, List.flatten_cons]
      have hne : writeRow [a, b, c, d, e] ++ (rs'.map writeRow).flatten ≠ [] := by
        intro habs
        rcases List.append_eq_nil.mp habs with ⟨h1, -⟩
        exact writeRow_ne_nil _ h1
      rw [parseRowsFuel_succ fuel' _ hne]
      have hlen : 6 ≤ (writeRow [a, b, c, d, e] ++ (rs'.map writeRow).flatten).length := by
        rw [List.length_append]
        have := writeRow5_len a b c d e
        omega
      obtain ⟨m, hm⟩ : ∃ m, (writeRow [a, b, c, d, e] ++ (rs'.map writeRow).flatten).length + 1 =
          m + 4 := ⟨(writeRow [a, b, c, d, e] ++ (rs'.map writeRow).flatten).length - 3, by omega⟩
      rw [hm, parseRowFuel_row5]
      simp only [List.map_cons]
      refine congrArg _ ?_
      exact ih (fun q hq => hr q (by simp [hq])) fuel' (by simpa using hfuel)

/-- One unfolding step of the fueled decoder on a non-empty stream. -/
theorem utf8DecodeF_cons (fuel : Nat) (b : Nat) (bs : List Nat) :
    utf8DecodeF (fuel + 1) (b :: bs) =
      match utf8DecodeOne b bs with
      | some (n, rest) => (utf8DecodeF fuel rest).map (fun ns => n :: ns)
      | none => none := rfl

/-- Decoding the encoding of one valid scalar value prepends it. -/
theorem utf8_stepF (fuel : Nat) (n : Nat)
    (hv : n < 0xD800 ∨ (0xDFFF < n ∧ n < 0x110000)) (bs : List Nat) :
    utf8DecodeF (fuel + 1) (utf8EncodeNat n ++ bs) =
      (utf8DecodeF fuel bs).map (fun ns => n :: ns) := by
  by_cases h1 : n < 0x80
  · rw [utf8EncodeNat, if_pos h1]
    show utf8DecodeF (fuel + 1) (n :: bs) = _
    rw [utf8DecodeF_cons]
    have hone : utf8DecodeOne n bs = some (n, bs) := by
      unfold utf8DecodeOne
      rw [if_pos h1]
    rw [hone]
  · by_cases h2 : n < 0x800
    · rw [utf8EncodeNat, if_neg h1, if_pos h2]
      show utf8DecodeF (fuel + 1) ((0xC0 + n / 64) :: (0x80 + n % 64) :: bs) = _
      rw [utf8DecodeF_cons]
      have hone : utf8DecodeOne (0xC0 + n / 64) ((0x80 + n % 64) :: bs) = some (n, bs) := by
        unfold utf8DecodeOne
        rw [if_neg (by omega), if_neg (by omega), if_pos (by omega)]
        show (if isCont (0x80 + n % 64) = true then
            if 0x80 ≤ (0xC0 + n / 64 - 0xC0) * 64 + (0x80 + n % 64 - 0x80) then
              some ((0xC0 + n / 64 - 0xC0) * 64 + (0x80 + n % 64 - 0x80), bs)
            else none
          else none) = some (n, bs)
        rw [if_pos (by simp only [isCont, Bool.and_eq_true, decide_eq_true_eq]; omega)]
        rw [if_pos (by omega)]
        rw [show (0xC0 + n / 64 - 0xC0) * 64 + (0x80 + n % 64 - 0x80) = n from by omega]
      rw [hone]
    · by_cases h3 : n < 0x10000
      · rw [utf8EncodeNat, if_neg h1, if_neg h2, if_pos h3]
        show utf8DecodeF (fuel + 1)
          ((0xE0 + n / 4096) :: (0x80 + n / 64 % 64) :: (0x80 + n % 64) :: bs) = _
        rw [utf8DecodeF_cons]
        have hone : utf8DecodeOne (0xE0 + n / 4096)
            ((0x80 + n / 64 % 64) :: (0x80 + n % 64) :: bs) = some (n, bs) := by
          unfold utf8DecodeOne
          rw [if_neg (by omega), if_neg (by omega), if_neg (by omega), if_pos (by omega)]
          show (if (isCont (0x80 + n / 64 % 64) && isCont (0x80 + n % 64)) = true then
              if (0x800 ≤ (0xE0 + n / 4096 - 0xE0) * 4096 + (0x80 + n / 64 % 64 - 0x80) * 64 +
                    (0x80 + n % 64 - 0x80) &&
                  !(0xD800 ≤ (0xE0 + n / 4096 - 0xE0) * 4096 + (0x80 + n / 64 % 64 - 0x80) * 64 +
                      (0x80 + n % 64 - 0x80) &&
                    (0xE0 + n / 4096 - 0xE0) * 4096 + (0x80 + n / 64 % 64 - 0x80) * 64 +
                      (0x80 + n % 64 - 0x80) ≤ 0xDFFF)) = true then
                some ((0xE0 + n / 4096 - 0xE0) * 4096 + (0x80 + n / 64 % 64 - 0x80) * 64 +
                  (0x80 + n % 64 - 0x80), bs)
              else none
            else none) = some (n, bs)
          rw [if_pos (by simp only [isCont, Bool.and_eq_true, decide_eq_true_eq]; omega)]
          rw [if_pos (by
            simp only [Bool.and_eq_true, decide_eq_true_eq, Bool.not_eq_true',
              Bool.and_eq_false_iff, decide_eq_false_iff_not]
            omega)]
          rw [show (0xE0 + n / 4096 - 0xE0) * 4096 + (0x80 + n / 64 % 64 - 0x80) * 64 +
            (0x80 + n % 64 - 0x80) = n from by omega]
        rw [hone]
      · rw [utf8EncodeNat, if_neg h1, if_neg h2, if_neg h3]
        show utf8DecodeF (fuel + 1)
          ((0xF0 + n / 262144) :: (0x80 + n / 4096 % 64) :: (0x80 + n / 64 % 64) ::
            (0x80 + n % 64) :: bs) = _
        rw [utf8DecodeF_cons]
        have hone : utf8DecodeOne (0xF0 + n / 262144)
            ((0x80 + n / 4096 % 64) :: (0x80 + n / 64 % 64) :: (0x80 + n % 64) :: bs) =
            some (n, bs) := by
          have hn : n < 0x110000 := by omega
          unfold utf8DecodeOne
          rw [if_neg (by omega), if_neg (by omega), if_neg (by omega), if_neg (by omega),
            if_pos (by omega)]
          show (if (isCont (0x80 + n / 4096 % 64) && isCont (0x80 + n / 64 % 64) &&
                isCont (0x80 + n % 64)) = true then
              if (0x10000 ≤ (0xF0 + n / 262144 - 0xF0) * 262144 +
                    (0x80 + n / 4096 % 64 - 0x80) * 4096 + (0x80 + n / 64 % 64 - 0x80) * 64 +
                    (0x80 + n % 64 - 0x80) &&
                  (0xF0 + n / 262144 - 0xF0) * 262144 + (0x80 + n / 4096 % 64 - 0x80) * 4096 +
                    (0x80 + n / 64 % 64 - 0x80) * 64 + (0x80 + n % 64 - 0x80) < 0x110000) =
                  true then
                some ((0xF0 + n / 262144 - 0xF0) * 262144 + (0x80 + n / 4096 % 64 - 0x80) * 4096 +
                  (0x80 + n / 64 % 64 - 0x80) * 64 + (0x80 + n % 64 - 0x80), bs)
              else none
            else none) = some (n, bs)
          rw [if_pos (by simp only [isCont, Bool.and_eq_true, decide_eq_true_eq]; omega)]
          rw [if_pos (by simp only [Bool.and_eq_true, decide_eq_true_eq]; omega)]
          rw [show (0xF0 + n / 262144 - 0xF0) * 262144 + (0x80 + n / 4096 % 64 - 0x80) * 4096 +
            (0x80 + n / 64 % 64 - 0x80) * 64 + (0x80 + n % 64 - 0x80) = n from by omega]
        rw [hone]

/-- Decoding the encoding of a character sequence, with enough fuel,
recovers its scalar values. -/
theorem utf8F_encode (cs : List Char) :
    ∀ fuel, cs.length ≤ fuel →
      utf8DecodeF fuel (utf8Encode cs) = some (cs.map Char.toNat) := by
  induction cs with
  | nil =>
    intro fuel _
    cases fuel <;> rfl
  | cons c cs' ih =>
    intro fuel hf
    cases fuel with
    | zero => simp at hf
    | succ fuel' =>
      have hunf : utf8Encode (c :: cs') = utf8EncodeNat c.toNat ++ utf8Encode cs' := by
        rw [utf8Encode, utf8Encode]
        simp
      have hv : c.toNat < 0xD800 ∨ (0xDFFF < c.toNat ∧ c.toNat < 0x110000) := c.valid
      rw [hunf, utf8_stepF fuel' c.toNat hv (utf8Encode cs'),
        ih fuel' (by simpa using hf)]
      rfl

/-- Each scalar encodes to at least one byte. -/
theorem utf8EncodeNat_len (n : Nat) : 1 ≤ (utf8EncodeNat n).length := by
  unfold utf8EncodeNat
  split_ifs <;> simp

/-- Decoding the encoding of any character sequence recovers its scalar
values. -/
theorem utf8Encode_decode (cs : List Char) :
    utf8Decode (utf8Encode cs) = some (cs.map Char.toNat) := by
  rw [utf8Decode]
  refine utf8F_encode cs _ ?_
  induction cs with
  | nil => simp
  | cons c cs' ih =>
    have hunf : utf8Encode (c :: cs') = utf8EncodeNat c.toNat ++ utf8Encode cs' := by
      rw [utf8Encode, utf8Encode]
      simp
    rw [hunf, List.length_append]
    have := utf8EncodeNat_len c.toNat
    simp only [List.length_cons]
    omega

/-- C5: writing any list of cards and re-reading the produced file yields
the fixed header row followed by exactly the cards' field values in order;
and the file content round-trips through its UTF-8 byte encoding. -/
theorem C5_csv_roundtrip (cards : List Card) :
    readCsv (writeCsvString cards) = headerRow :: cards.map cardFields ∧
    utf8Decode (utf8Encode (writeCsvString cards)) =
      some ((writeCsvString cards).map Char.toNat) := by
  constructor
  · have hflat : writeCsvString cards =
        (((headerRow :: cards.map cardFields).map writeRow)).flatten := by
      rw [writeCsvString, List.map_cons, List.flatten_cons, List.map_map]
      rfl
    have hr5 : ∀ r ∈ headerRow :: cards.map cardFields, r.length = 5 := by
      intro r hrr
      rcases List.mem_cons.mp hrr with rfl | hrr
      · rfl
      · obtain ⟨c, -, rfl⟩ := List.mem_map.mp hrr
        rfl
    have hrows : 1 ≤ (headerRow :: cards.map cardFields).length := by simp
    have hlen : (headerRow :: cards.map cardFields).length ≤
        (writeCsvString cards).length + 1 := by
      rw [hflat]
      have : ∀ (rs : List (List String)), rs.length ≤ ((rs.map writeRow)).flatten.length := by
        intro rs
        induction rs with
        | nil => simp
        | cons q qs ihq =>
          simp only [List.map_cons, List.flatten_cons, List.length_append, List.length_cons]
          have hq : 1 ≤ (writeRow q).length := by
            cases hnil : writeRow q with
            | nil => exact absurd hnil (writeRow_ne_nil q)
            | cons x xs => simp [List.length_cons]
          omega
      have := this (headerRow :: cards.map cardFields)
      omega
    rw [readCsv, hflat, parseRowsFuel_rows _ hr5 _ (by rw [← hflat]; exact hlen)]
    rw [List.map_map]
    have : ((fun row => row.map String.mk) ∘ fun r => r.map String.data) =
        fun (r : List String) => r := by
      funext r
      simp only [Function.comp_apply, List.map_map]
      have : (String.mk ∘ String.data) = fun (s : String) => s := by
        funext s
        rfl
      rw [this, List.map_id']
    rw [this, List.map_id']
  · exact utf8Encode_decode (writeCsvString cards)

/-! ## The command-line entry point -/

/-- C6: on an existing input path whose lower-cased extension is neither
`.pdf` nor `.docx`, the run terminates with the unsupported-format
`ValueError` (whose message names the two allowed formats), and the output
file is left untouched. -/
theorem C6_unsupported_format (env : Env) (outFile : Option (List Char)) (a p : String)
    (hargv : env.argv = [a, p])
    (hex : env.fileExists p = true)
    (h1 : pyLower (pySuffix p) ≠ ".pdf")
    (h2 : pyLower (pySuffix p) ≠ ".docx") :
    pyMain env outFile =
      (outFile, MainResult.uncaught
        (MainError.valueError "Format no suportat. Usa PDF o DOCX.")) ∧
    (∃ u v w, ("Format no suportat. Usa PDF o DOCX." : String).data =
      u ++ "PDF".data ++ v ++ "DOCX".data ++ w) := by
  constructor
  · have hext : extract_text env p =
        .error (.valueError "Format no suportat. Usa PDF o DOCX.") := by
      rw [extract_text, if_neg h1, if_neg h2]
    unfold pyMain
    rw [hargv]
    show (if env.fileExists p = true then
        match extract_text env p with
        | .error e => (outFile, MainResult.uncaught e)
        | .ok paragraphs =>
          let cards := generate_cards (detect_sections paragraphs)
          (some (writeCsvString cards), MainResult.success cards.length)
      else (outFile, MainResult.uncaught (MainError.fileNotFound p))) = _
    rw [if_pos hex, hext]
  · exact ⟨"Format no suportat. Usa ".data, " o ".data, ".".data, by decide⟩

/-- Concrete instance of `C6_unsupported_format`: an existing `.txt` file. -/
theorem C6_unsupported_format_witness :
    pyMain { argv := ["generate_cards.py", "notes.txt"], fileExists := fun _ => true,
             extractPdf := fun _ => [], extractDocx := fun _ => [] } none =
      ((none : Option (List Char)), MainResult.uncaught
        (MainError.valueError "Format no suportat. Usa PDF o DOCX.")) ∧
    (∃ u v w, ("Format no suportat. Usa PDF o DOCX." : String).data =
      u ++ "PDF".data ++ v ++ "DOCX".data ++ w) :=
  C6_unsupported_format _ none "generate_cards.py" "notes.txt" rfl rfl
    (by decide) (by decide)

/-- C10: with exactly one argument naming a non-existent path, the run
terminates with the file-not-found error — regardless of the path's
extension, since the existence check precedes the extension dispatch — and
the output file is left untouched. -/
theorem C10_not_found_first (env : Env) (outFile : Option (List Char)) (a p : String)
    (hargv : env.argv = [a, p])
    (hne : env.fileExists p = false) :
    pyMain env outFile = (outFile, MainResult.uncaught (MainError.fileNotFound p)) := by
  unfold pyMain
  rw [hargv]
  show (if env.fileExists p = true then
      match extract_text env p with
      | .error e => (outFile, MainResult.uncaught e)
      | .ok paragraphs =>
        let cards := generate_cards (detect_sections paragraphs)
        (some (writeCsvString cards), MainResult.success cards.length)
    else (outFile, MainResult.uncaught (MainError.fileNotFound p))) = _
  rw [if_neg (by rw [hne]; simp)]

/-- Concrete instance of `C10_not_found_first`: a non-existent path with an
unsupported extension still fails with file-not-found, not
unsupported-format. -/
theorem C10_not_found_first_witness :
    pyMain { argv := ["generate_cards.py", "missing.txt"], fileExists := fun _ => false,
             extractPdf := fun _ => [], extractDocx := fun _ => [] } none =
      ((none : Option (List Char)),
        MainResult.uncaught (MainError.fileNotFound "missing.txt")) :=
  C10_not_found_first _ none "generate_cards.py" "missing.txt" rfl rfl

end AnkiFromDocs
